import Mathlib

/-!
# Anonymizer: the JSON walker of `main.go`

A shallow embedding of `anonymize`, `anonymizeMap` and `anonymizeArn`, together
with the three operations of the `aws/arn` package they call, and the
properties of the walker proved over that embedding.

Go strings are modelled by Lean strings (sequences of Unicode scalar values:
the JSON decoder only produces valid UTF-8).  Go maps are modelled by
association lists written with `mapSet`, the counterpart of `m[k] = v`.
-/

namespace Anonymizer

/-! ## Strings -/

/-- Go `strings.HasPrefix s p`. -/
def hasPrefix (s p : String) : Bool :=
  p.data.isPrefixOf s.data

/-- Substring test on character lists: does `sub` start at some position of the list. -/
def containsChars (sub : List Char) : List Char → Bool
  | [] => sub.isPrefixOf []
  | c :: cs => sub.isPrefixOf (c :: cs) || containsChars sub cs

/-- Go `strings.Contains s sub`. -/
def contains (s sub : String) : Bool :=
  containsChars sub.data s.data

/-- Go `strings.Count s ":"`: the number of colons of `s`. -/
def countColons (s : String) : Nat :=
  s.data.count ':'

/-- Go `unicode.ToLower` on one rune: the ASCII letters `A`..`Z` are shifted to
`a`..`z`, the other ASCII runes are kept, and a rune outside ASCII is looked up
in the Unicode case table of the Go standard library, which is the parameter
`caseTable`. -/
def toLowerRune (caseTable : Char → Char) (c : Char) : Char :=
  if c.toNat < 128 then
    (if 65 ≤ c.toNat ∧ c.toNat ≤ 90 then Char.ofNat (c.toNat + 32) else c)
  else caseTable c

/-- Go `strings.ToLower`: `unicode.ToLower` mapped over the runes of the string. -/
def toLower (caseTable : Char → Char) (s : String) : String :=
  String.mk (s.data.map (toLowerRune caseTable))

/-! ## The `aws/arn` package -/

/-- Modelled from the spec: the struct `arn.ARN` of the external package
`github.com/aws/aws-sdk-go-v2/aws/arn`, the parsed fields
partition, service, region, account ID and resource. -/
structure ARN where
  partition : String
  service : String
  region : String
  accountID : String
  resource : String
  deriving DecidableEq, Repr

/-- First colon of a character list: the characters before it and those after it,
or `none` when the list has no colon (Go `strings.Index` followed by the two slices). -/
def cutColon : List Char → Option (List Char × List Char)
  | [] => none
  | c :: cs =>
    if c = ':' then some ([], cs)
    else match cutColon cs with
      | none => none
      | some (pre, post) => some (c :: pre, post)

/-- Go `strings.SplitN s ":" n` on character lists: at most `n` sections, the
last one holding the unsplit remainder. -/
def splitN : Nat → List Char → List (List Char)
  | 0, _ => []
  | 1, s => [s]
  | n + 2, s =>
    match cutColon s with
    | none => [s]
    | some (pre, post) => pre :: splitN (n + 1) post

/-- Modelled from the spec: `arn.IsARN` of the external package
`github.com/aws/aws-sdk-go-v2/aws/arn`, the validity check: the string starts
with `arn:` and contains at least five colons. -/
def IsARN (s : String) : Bool :=
  hasPrefix s "arn:" && decide (5 ≤ countColons s)

/-- Modelled from the spec: `arn.Parse` of the external package
`github.com/aws/aws-sdk-go-v2/aws/arn`: it fails on a string that does not
start with `arn:` or has fewer than six colon-separated sections, and otherwise
returns the five fields after the leading `arn`, the resource being the whole
remainder after the fifth colon. -/
def Parse (s : String) : Option ARN :=
  if hasPrefix s "arn:" then
    match splitN 6 s.data with
    | [_, p, sv, r, a, res] =>
      some ⟨String.mk p, String.mk sv, String.mk r, String.mk a, String.mk res⟩
    | _ => none
  else none

/-- Modelled from the spec: the method `ARN.String` of the external package
`github.com/aws/aws-sdk-go-v2/aws/arn`, the canonical text
`arn:partition:service:region:account-id:resource`. -/
def ARN.String (a : ARN) : String :=
  "arn:" ++ a.partition ++ ":" ++ a.service ++ ":" ++ a.region ++ ":" ++
    a.accountID ++ ":" ++ a.resource

/-- The function `anonymizeArn` of `main.go`. -/
def anonymizeArn (arn : String) : String :=
  match Parse arn with
  | none => "arn:aws:REDACTED"
  | some arnParts =>
    let arnParts := { arnParts with accountID := "000000000000" }
    let arnParts := { arnParts with resource := "REDACTED" }
    arnParts.String

/-! ## Values -/

/-- The dynamic values the walker handles: the six kinds produced by
`json.Unmarshal` into `any` (`nil`, `bool`, `float64`, `string`, `[]any`,
`map[string]any`), and `map[string]string`, which the walker itself creates
for tags.  A number is never inspected; its carrier is the rationals, which
contain every finite `float64`. -/
inductive Value where
  | null : Value
  | bool (b : Bool) : Value
  | num (n : Rat) : Value
  | str (s : String) : Value
  | arr (xs : List Value) : Value
  | obj (kvs : List (String × Value)) : Value
  | strmap (kvs : List (String × String)) : Value

/-- Go `m[k] = v` on an association list: the binding of `k` is replaced where
it stands, and a new key is added at the end. -/
def mapSet {β : Type} : List (String × β) → String → β → List (String × β)
  | [], k, v => [(k, v)]
  | (k', v') :: rest, k, v =>
    if k' = k then (k, v) :: rest else (k', v') :: mapSet rest k v

/-- Go `m[k]` with the presence flag. -/
def mapGet {β : Type} : List (String × β) → String → Option β
  | [], _ => none
  | (k', v') :: rest, k => if k' = k then some v' else mapGet rest k

/-- The step at lines 93-96 of `anonymizeMap`: a string value that is an ARN is
replaced by its redaction. -/
def preRedact : Value → Value
  | .str vs => if IsARN vs then .str (anonymizeArn vs) else .str vs
  | v => v

mutual
/-- The function `anonymize` of `main.go`. -/
def anonymize (caseTable : Char → Char) : Value → Value
  | .arr v => .arr (anonymizeItems caseTable v)
  | .obj v => .obj (anonymizeMapLoop caseTable v [])
  | .str v => if IsARN v then .str (anonymizeArn v) else .str v
  | .null => .null
  | .bool b => .bool b
  | .num n => .num n
  | .strmap m => .strmap m
/-- The loop `for i, item := range v` of `anonymize`. -/
def anonymizeItems (caseTable : Char → Char) : List Value → List Value
  | [] => []
  | item :: rest => anonymize caseTable item :: anonymizeItems caseTable rest
/-- The loop `for i, item := range arr` of the `relationships` case. -/
def relationshipItems (caseTable : Char → Char) : List Value → List Value
  | [] => []
  | .obj m :: rest =>
    .obj (anonymizeMapLoop caseTable m []) :: relationshipItems caseTable rest
  | item :: rest => item :: relationshipItems caseTable rest
/-- The loop `for k, v := range ci` of `anonymizeMap`, with the map `redacted`
built so far.  The switch on `lowerK` is written as a chain of tests in the order of
its cases.  Lines 93-96 reassign `v` only when it is a string, and to a string: the
type tests of the `configuration`, `relationships` and default cases are therefore
made on the input value, and `preRedact v` stands where the reassigned `v` is read. -/
def anonymizeMapLoop (caseTable : Char → Char) :
    List (String × Value) → List (String × Value) → List (String × Value)
  | [], redacted => redacted
  | (k, v) :: rest, redacted =>
    let lowerK := toLower caseTable k
    if contains lowerK "name" then
      anonymizeMapLoop caseTable rest (mapSet redacted k (.str "REDACTED_NAME"))
    else if lowerK = "accountid" then
      anonymizeMapLoop caseTable rest (mapSet redacted k (.str "000000000000"))
    else if lowerK = "resourceid" then
      anonymizeMapLoop caseTable rest (mapSet redacted k (.str "REDACTED_RESOURCE_ID"))
    else if lowerK = "resourcename" then
      anonymizeMapLoop caseTable rest (mapSet redacted k (.str "REDACTED_RESOURCE_NAME"))
    else if lowerK = "arn" then
      let redacted :=
        match preRedact v with
        | .str vs =>
          if contains vs "REDACTED" then mapSet redacted k (.str vs)
          else mapSet redacted k (.str (anonymizeArn vs))
        | _ => mapSet redacted k (.str "arn:aws:REDACTED")
      anonymizeMapLoop caseTable rest (mapSet redacted k (.str "arn:aws:REDACTED"))
    else if lowerK = "tags" then
      anonymizeMapLoop caseTable rest (mapSet redacted k (.strmap [("REDACTED", "REDACTED")]))
    else if lowerK = "configuration" then
      match v with
      | .obj submap =>
        anonymizeMapLoop caseTable rest
          (mapSet redacted k (.obj (anonymizeMapLoop caseTable submap [])))
      | _ => anonymizeMapLoop caseTable rest (mapSet redacted k (.str "REDACTED_CONFIGURATION"))
    else if lowerK = "relationships" then
      match v with
      | .arr arr =>
        anonymizeMapLoop caseTable rest
          (mapSet redacted k (.arr (relationshipItems caseTable arr)))
      | _ => anonymizeMapLoop caseTable rest (mapSet redacted k (preRedact v))
    else
      match v with
      | .obj val =>
        anonymizeMapLoop caseTable rest
          (mapSet redacted k (.obj (anonymizeMapLoop caseTable val [])))
      | .arr val =>
        anonymizeMapLoop caseTable rest
          (mapSet redacted k (.arr (anonymizeItems caseTable val)))
      | _ => anonymizeMapLoop caseTable rest (mapSet redacted k (preRedact v))
end

/-- The function `anonymizeMap` of `main.go`. -/
def anonymizeMap (caseTable : Char → Char) (ci : List (String × Value)) :
    List (String × Value) :=
  anonymizeMapLoop caseTable ci []

/-! ## Auxiliary notions used by the statements -/

/-- A string without a colon. -/
def colonFree (s : String) : Prop := ':' ∉ s.data

instance (s : String) : Decidable (colonFree s) := by
  unfold colonFree; infer_instance

/-- The four fields before the resource hold no colon. -/
def ARN.wellFormed (a : ARN) : Prop :=
  colonFree a.partition ∧ colonFree a.service ∧ colonFree a.region ∧ colonFree a.accountID

/-- The value that one pass of the loop body of `anonymizeMap` stores under the key `k`
whose input value is `v`. -/
def fieldValue (caseTable : Char → Char) (k : String) (v : Value) : Value :=
  let lowerK := toLower caseTable k
  if contains lowerK "name" then .str "REDACTED_NAME"
  else if lowerK = "accountid" then .str "000000000000"
  else if lowerK = "resourceid" then .str "REDACTED_RESOURCE_ID"
  else if lowerK = "resourcename" then .str "REDACTED_RESOURCE_NAME"
  else if lowerK = "arn" then .str "arn:aws:REDACTED"
  else if lowerK = "tags" then .strmap [("REDACTED", "REDACTED")]
  else if lowerK = "configuration" then
    match v with
    | .obj submap => .obj (anonymizeMap caseTable submap)
    | _ => .str "REDACTED_CONFIGURATION"
  else if lowerK = "relationships" then
    match v with
    | .arr arr => .arr (relationshipItems caseTable arr)
    | _ => preRedact v
  else
    match v with
    | .obj val => .obj (anonymizeMap caseTable val)
    | .arr val => .arr (anonymizeItems caseTable val)
    | _ => preRedact v

/-- The value stored by the `configuration` case of `anonymizeMap` for the input value `v`. -/
def configurationValue (caseTable : Char → Char) (v : Value) : Value :=
  match v with
  | .obj submap => .obj (anonymizeMap caseTable submap)
  | _ => .str "REDACTED_CONFIGURATION"

/-- The value stored by the `relationships` case of `anonymizeMap` for the input value `v`. -/
def relationshipsValue (caseTable : Char → Char) (v : Value) : Value :=
  match v with
  | .arr arr => .arr (relationshipItems caseTable arr)
  | _ => preRedact v

/-- The keys that neither the `name` test nor a case of the switch of `anonymizeMap`
catches. -/
def unlistedKey (caseTable : Char → Char) (k : String) : Prop :=
  contains (toLower caseTable k) "name" = false ∧
    toLower caseTable k ≠ "accountid" ∧ toLower caseTable k ≠ "resourceid" ∧
    toLower caseTable k ≠ "resourcename" ∧ toLower caseTable k ≠ "arn" ∧
    toLower caseTable k ≠ "tags" ∧ toLower caseTable k ≠ "configuration" ∧
    toLower caseTable k ≠ "relationships"

/-- Stability of a value under a second pass, in each of the three places where its
content is looked at. -/
def Stable (caseTable : Char → Char) (v : Value) : Prop :=
  anonymize caseTable (anonymize caseTable v) = anonymize caseTable v ∧
    configurationValue caseTable (configurationValue caseTable v) =
      configurationValue caseTable v ∧
    relationshipsValue caseTable (relationshipsValue caseTable v) =
      relationshipsValue caseTable v

/-- An ARN whose account ID is `000000000000` and whose resource is `REDACTED`. -/
def isRedactedARN (s : String) : Bool :=
  match Parse s with
  | some a => a.accountID == "000000000000" && a.resource == "REDACTED"
  | none => false

mutual
/-- The values made of the six kinds that `json.Unmarshal` produces, at every depth. -/
def isJSON : Value → Bool
  | .strmap _ => false
  | .arr xs => itemsJSON xs
  | .obj m => fieldsJSON m
  | _ => true
/-- Every element is a JSON value. -/
def itemsJSON : List Value → Bool
  | [] => true
  | x :: xs => isJSON x && itemsJSON xs
/-- Every field value is a JSON value. -/
def fieldsJSON : List (String × Value) → Bool
  | [] => true
  | (_, v) :: rest => isJSON v && fieldsJSON rest
end

mutual
/-- The strings that occur as a value in `v`: `v` itself, an array element or a field
value, at any depth. -/
def strings : Value → List String
  | .str s => [s]
  | .arr xs => itemStrings xs
  | .obj m => fieldStrings m
  | .strmap m => m.map Prod.snd
  | _ => []
/-- The strings that occur in the elements of an array. -/
def itemStrings : List Value → List String
  | [] => []
  | x :: xs => strings x ++ itemStrings xs
/-- The strings that occur in the field values of an object. -/
def fieldStrings : List (String × Value) → List String
  | [] => []
  | (_, v) :: rest => strings v ++ fieldStrings rest
end

mutual
/-- The strings of `strings v`, those left out that lie under a key whose lower-cased
form is `relationships` in a part that `anonymizeMap` passes through: inside an array
element that is not an object, or inside a value that is neither an array nor a string. -/
def guardedStrings (caseTable : Char → Char) : Value → List String
  | .str s => [s]
  | .arr xs => guardedItemStrings caseTable xs
  | .obj m => guardedFieldStrings caseTable m
  | .strmap m => m.map Prod.snd
  | _ => []
/-- The guarded strings of the elements of an array. -/
def guardedItemStrings (caseTable : Char → Char) : List Value → List String
  | [] => []
  | x :: xs => guardedStrings caseTable x ++ guardedItemStrings caseTable xs
/-- The guarded strings of the elements of a `relationships` array that are objects. -/
def relationshipObjectStrings (caseTable : Char → Char) : List Value → List String
  | [] => []
  | .obj m :: rest =>
    guardedFieldStrings caseTable m ++ relationshipObjectStrings caseTable rest
  | _ :: rest => relationshipObjectStrings caseTable rest
/-- The guarded strings of the field values of an object. -/
def guardedFieldStrings (caseTable : Char → Char) : List (String × Value) → List String
  | [] => []
  | (k, v) :: rest =>
    (if toLower caseTable k = "relationships" then
      match v with
      | .arr xs => relationshipObjectStrings caseTable xs
      | .str s => [s]
      | _ => []
    else guardedStrings caseTable v) ++ guardedFieldStrings caseTable rest
end

/-- The guarded strings of a value stored under a key whose lower-cased form is
`relationships`. -/
def relationshipsStrings (caseTable : Char → Char) (v : Value) : List String :=
  match v with
  | .arr xs => relationshipObjectStrings caseTable xs
  | .str s => [s]
  | _ => []

/-- A string that, if it is a valid ARN, has the redacted account ID and resource. -/
def NoLeak (s : String) : Prop :=
  IsARN s = true → isRedactedARN s = true

/-- No guarded string of what the walker stores for the value `v` leaks an ARN, in each
of the three places where the content of `v` is looked at. -/
def Safe (caseTable : Char → Char) (v : Value) : Prop :=
  (∀ s ∈ guardedStrings caseTable (anonymize caseTable v), NoLeak s) ∧
    (∀ s ∈ relationshipsStrings caseTable (relationshipsValue caseTable v), NoLeak s) ∧
    (∀ s ∈ guardedStrings caseTable (configurationValue caseTable v), NoLeak s)

/-- The body of the loop `for i, item := range arr` of the `relationships` case: an
element that is an object is replaced by `anonymizeMap` of it, any other element is
kept. -/
def relationshipItem (caseTable : Char → Char) (item : Value) : Value :=
  match item with
  | .obj m => .obj (anonymizeMap caseTable m)
  | _ => item

/-- The kind of a value: the branch that a Go type switch on it takes. -/
inductive Kind where
  | null | bool | num | str | arr | obj | strmap
  deriving DecidableEq, Repr

/-- The kind of a value. -/
def Value.kind : Value → Kind
  | .null => .null
  | .bool _ => .bool
  | .num _ => .num
  | .str _ => .str
  | .arr _ => .arr
  | .obj _ => .obj
  | .strmap _ => .strmap

/-! ## Theorems -/

/-! ## Splitting at colons -/

theorem cutColon_append (p rest : List Char) (hp : ':' ∉ p) :
    cutColon (p ++ ':' :: rest) = some (p, rest) := by
  induction p with
  | nil => simp [cutColon]
  | cons c cs ih =>
    have hc : c ≠ ':' := fun h => hp (by simp [h])
    have hcs : ':' ∉ cs := fun h => hp (by simp [h])
    simp [cutColon, hc, ih hcs]

theorem cutColon_of_count (s : List Char) (h : 0 < s.count ':') :
    ∃ p rest, s = p ++ ':' :: rest ∧ ':' ∉ p ∧ rest.count ':' + 1 = s.count ':' := by
  induction s with
  | nil => simp at h
  | cons c cs ih =>
    by_cases hc : c = ':'
    · exact ⟨[], cs, by simp [hc], by simp, by simp [hc]⟩
    · have hc' : (c == ':') = false := by simpa using hc
      have h' : 0 < cs.count ':' := by
        rw [List.count_cons, hc'] at h
        simpa using h
      obtain ⟨p, rest, hs, hp, hn⟩ := ih h'
      refine ⟨c :: p, rest, by simp [hs], ?_, ?_⟩
      · simp only [List.mem_cons, not_or]
        exact ⟨fun e => hc e.symm, hp⟩
      · rw [List.count_cons, hc', hn]
        simp

theorem splitN_six (a0 a1 a2 a3 a4 res : List Char)
    (h0 : ':' ∉ a0) (h1 : ':' ∉ a1) (h2 : ':' ∉ a2) (h3 : ':' ∉ a3) (h4 : ':' ∉ a4) :
    splitN 6 (a0 ++ ':' :: (a1 ++ ':' :: (a2 ++ ':' :: (a3 ++ ':' :: (a4 ++ ':' :: res))))) =
      [a0, a1, a2, a3, a4, res] := by
  simp only [splitN, cutColon_append _ _ h0, cutColon_append _ _ h1, cutColon_append _ _ h2,
    cutColon_append _ _ h3, cutColon_append _ _ h4]

theorem four_colons (t : List Char) (h : 4 ≤ t.count ':') :
    ∃ a1 a2 a3 a4 res, ':' ∉ a1 ∧ ':' ∉ a2 ∧ ':' ∉ a3 ∧ ':' ∉ a4 ∧
      t = a1 ++ ':' :: (a2 ++ ':' :: (a3 ++ ':' :: (a4 ++ ':' :: res))) := by
  obtain ⟨a1, r1, e1, h1, n1⟩ := cutColon_of_count t (by omega)
  obtain ⟨a2, r2, e2, h2, n2⟩ := cutColon_of_count r1 (by omega)
  obtain ⟨a3, r3, e3, h3, n3⟩ := cutColon_of_count r2 (by omega)
  obtain ⟨a4, r4, e4, h4, _⟩ := cutColon_of_count r3 (by omega)
  exact ⟨a1, a2, a3, a4, r4, h1, h2, h3, h4, by rw [e1, e2, e3, e4]⟩

/-! ## ARN text -/

theorem ARN_String_data (a : ARN) :
    a.String.data = 'a' :: 'r' :: 'n' :: ':' :: (a.partition.data ++ ':' :: (a.service.data ++
      ':' :: (a.region.data ++ ':' :: (a.accountID.data ++ ':' :: a.resource.data)))) := by
  simp [ARN.String, String.data_append]

theorem hasPrefix_arn_iff (s : String) :
    hasPrefix s "arn:" = true ↔ ∃ t, s.data = 'a' :: 'r' :: 'n' :: ':' :: t := by
  unfold hasPrefix
  rw [List.isPrefixOf_iff_prefix]
  constructor
  · rintro ⟨t, ht⟩
    exact ⟨t, ht.symm⟩
  · rintro ⟨t, ht⟩
    exact ⟨t, ht.symm⟩

theorem hasPrefix_ARN_String (a : ARN) : hasPrefix a.String "arn:" = true :=
  (hasPrefix_arn_iff _).2 ⟨_, ARN_String_data a⟩

theorem Parse_ARN_String (a : ARN) (h : a.wellFormed) : Parse a.String = some a := by
  obtain ⟨h1, h2, h3, h4⟩ := h
  have h0 : ':' ∉ ['a', 'r', 'n'] := by decide
  have hs := splitN_six ['a', 'r', 'n'] _ _ _ _ a.resource.data h0 h1 h2 h3 h4
  unfold Parse
  rw [if_pos (hasPrefix_ARN_String a), ARN_String_data]
  simp only [List.cons_append, List.nil_append] at hs
  rw [hs]

theorem IsARN_ARN_String (a : ARN) (h : a.wellFormed) : IsARN a.String = true := by
  obtain ⟨h1, h2, h3, h4⟩ := h
  unfold colonFree at h1 h2 h3 h4
  simp only [IsARN, hasPrefix_ARN_String, countColons, ARN_String_data, Bool.true_and,
    decide_eq_true_eq]
  simp [List.count_cons, List.count_append]
  omega

theorem IsARN_iff (s : String) :
    IsARN s = true ↔ ∃ a : ARN, a.wellFormed ∧ s = a.String := by
  constructor
  · intro h
    simp only [IsARN, Bool.and_eq_true, decide_eq_true_eq] at h
    obtain ⟨hp, hc⟩ := h
    obtain ⟨t, ht⟩ := (hasPrefix_arn_iff s).1 hp
    have hc4 : 4 ≤ t.count ':' := by
      simp only [countColons, ht] at hc
      simp [List.count_cons] at hc
      omega
    obtain ⟨a1, a2, a3, a4, res, h1, h2, h3, h4, e⟩ := four_colons t hc4
    refine ⟨⟨String.mk a1, String.mk a2, String.mk a3, String.mk a4, String.mk res⟩,
      ⟨h1, h2, h3, h4⟩, ?_⟩
    apply String.ext
    rw [ARN_String_data, ht, e]
  · rintro ⟨a, ha, rfl⟩
    exact IsARN_ARN_String a ha

theorem anonymizeArn_ARN_String (a : ARN) (h : a.wellFormed) :
    anonymizeArn a.String =
      ARN.String ⟨a.partition, a.service, a.region, "000000000000", "REDACTED"⟩ := by
  unfold anonymizeArn
  rw [Parse_ARN_String a h]

theorem wellFormed_redacted (a : ARN) (h : a.wellFormed) :
    ARN.wellFormed ⟨a.partition, a.service, a.region, "000000000000", "REDACTED"⟩ :=
  ⟨h.1, h.2.1, h.2.2.1, (by decide : colonFree "000000000000")⟩

theorem IsARN_anonymizeArn (s : String) (h : IsARN s = true) :
    IsARN (anonymizeArn s) = true := by
  obtain ⟨a, ha, rfl⟩ := (IsARN_iff s).1 h
  rw [anonymizeArn_ARN_String a ha]
  exact IsARN_ARN_String _ (wellFormed_redacted a ha)

theorem anonymizeArn_anonymizeArn (s : String) (h : IsARN s = true) :
    anonymizeArn (anonymizeArn s) = anonymizeArn s := by
  obtain ⟨a, ha, rfl⟩ := (IsARN_iff s).1 h
  rw [anonymizeArn_ARN_String a ha, anonymizeArn_ARN_String _ (wellFormed_redacted a ha)]

theorem preRedact_preRedact (v : Value) : preRedact (preRedact v) = preRedact v := by
  cases v <;> try rfl
  rename_i s
  by_cases h : IsARN s = true
  · simp only [preRedact, if_pos h, IsARN_anonymizeArn s h, anonymizeArn_anonymizeArn s h,
      if_true]
  · simp only [preRedact, if_neg h]

/-! ## The loop of `anonymizeMap` as a fold -/

theorem mapSet_mapSet {β : Type} (m : List (String × β)) (k : String) (a b : β) :
    mapSet (mapSet m k a) k b = mapSet m k b := by
  induction m with
  | nil => simp [mapSet]
  | cons hd tl ih =>
    obtain ⟨k', v'⟩ := hd
    by_cases h : k' = k
    · simp [mapSet, h]
    · simp [mapSet, h, ih]

theorem anonymizeMapLoop_cons (caseTable : Char → Char) (k : String) (v : Value)
    (rest redacted : List (String × Value)) :
    anonymizeMapLoop caseTable ((k, v) :: rest) redacted =
      anonymizeMapLoop caseTable rest (mapSet redacted k (fieldValue caseTable k v)) := by
  cases v <;> rw [anonymizeMapLoop]
  any_goals (intro _ h; cases h)
  all_goals
    unfold fieldValue
    by_cases h1 : contains (toLower caseTable k) "name" = true
    · simp only [if_pos h1]
    simp only [if_neg h1]
    by_cases h2 : toLower caseTable k = "accountid"
    · simp only [if_pos h2]
    simp only [if_neg h2]
    by_cases h3 : toLower caseTable k = "resourceid"
    · simp only [if_pos h3]
    simp only [if_neg h3]
    by_cases h4 : toLower caseTable k = "resourcename"
    · simp only [if_pos h4]
    simp only [if_neg h4]
    by_cases h5 : toLower caseTable k = "arn"
    · simp only [if_pos h5]
      generalize preRedact _ = w
      cases w <;> simp only [mapSet_mapSet]
      split <;> simp only [mapSet_mapSet]
    simp only [if_neg h5]
    by_cases h6 : toLower caseTable k = "tags"
    · simp only [if_pos h6]
    simp only [if_neg h6]
    by_cases h7 : toLower caseTable k = "configuration"
    · simp only [if_pos h7, anonymizeMap]
    simp only [if_neg h7]
    by_cases h8 : toLower caseTable k = "relationships"
    · simp only [if_pos h8, preRedact]
    simp only [if_neg h8, anonymizeMap, preRedact]

theorem mapGet_mapSet_self {β : Type} (m : List (String × β)) (k : String) (v : β) :
    mapGet (mapSet m k v) k = some v := by
  induction m with
  | nil => simp [mapSet, mapGet]
  | cons hd tl ih =>
    obtain ⟨k', v'⟩ := hd
    by_cases h : k' = k
    · simp [mapSet, mapGet, h]
    · simp [mapSet, mapGet, h, ih]

theorem mapGet_mapSet_of_ne {β : Type} (m : List (String × β)) (k k' : String) (v : β)
    (hne : k ≠ k') : mapGet (mapSet m k v) k' = mapGet m k' := by
  induction m with
  | nil => simp [mapSet, mapGet, hne]
  | cons hd tl ih =>
    obtain ⟨k0, v0⟩ := hd
    by_cases h : k0 = k
    · have h' : ¬ k0 = k' := fun e => hne (h ▸ e)
      simp [mapSet, mapGet, h, hne, h']
    · by_cases h' : k0 = k'
      · subst h'
        simp [mapSet, mapGet, h]
      · simp [mapSet, mapGet, h, h', ih]

theorem mapSet_of_not_mem {β : Type} (m : List (String × β)) (k : String) (v : β)
    (h : k ∉ m.map Prod.fst) : mapSet m k v = m ++ [(k, v)] := by
  induction m with
  | nil => rfl
  | cons hd tl ih =>
    obtain ⟨k0, v0⟩ := hd
    simp only [List.map_cons, List.mem_cons, not_or] at h
    have h0 : ¬ k0 = k := fun e => h.1 e.symm
    simp [mapSet, h0, ih h.2]

theorem anonymizeMapLoop_not_mem (caseTable : Char → Char) (m redacted : List (String × Value))
    (k : String) (h : k ∉ m.map Prod.fst) :
    mapGet (anonymizeMapLoop caseTable m redacted) k = mapGet redacted k := by
  induction m generalizing redacted with
  | nil => simp [anonymizeMapLoop]
  | cons hd tl ih =>
    obtain ⟨k0, v0⟩ := hd
    simp only [List.map_cons, List.mem_cons, not_or] at h
    rw [anonymizeMapLoop_cons, ih _ h.2, mapGet_mapSet_of_ne _ _ _ _ (fun e => h.1 e.symm)]

/-- A key whose stored value does not depend on the input value gets that value,
whatever the map holds besides. -/
theorem anonymizeMapLoop_const (caseTable : Char → Char) (m redacted : List (String × Value))
    (k : String) (c : Value) (hc : ∀ v, fieldValue caseTable k v = c)
    (h : k ∈ m.map Prod.fst) :
    mapGet (anonymizeMapLoop caseTable m redacted) k = some c := by
  induction m generalizing redacted with
  | nil => simp at h
  | cons hd tl ih =>
    obtain ⟨k0, v0⟩ := hd
    rw [anonymizeMapLoop_cons]
    by_cases hk : k ∈ tl.map Prod.fst
    · exact ih _ hk
    · have h0 : k0 = k := by
        simp only [List.map_cons, List.mem_cons] at h
        rcases h with h | h
        · exact h.symm
        · exact absurd h hk
      subst h0
      rw [anonymizeMapLoop_not_mem _ _ _ _ hk, mapGet_mapSet_self, hc]

/-- On a map with unique keys, none of them in `redacted`, the loop appends one
binding for each input binding, in the order of the input. -/
theorem anonymizeMapLoop_nodup (caseTable : Char → Char) (m redacted : List (String × Value))
    (hm : (m.map Prod.fst).Nodup) (hd : ∀ k ∈ m.map Prod.fst, k ∉ redacted.map Prod.fst) :
    anonymizeMapLoop caseTable m redacted =
      redacted ++ m.map (fun kv => (kv.1, fieldValue caseTable kv.1 kv.2)) := by
  induction m generalizing redacted with
  | nil => simp [anonymizeMapLoop]
  | cons hd0 tl ih =>
    obtain ⟨k0, v0⟩ := hd0
    simp only [List.map_cons, List.nodup_cons] at hm
    have hk0 : k0 ∉ redacted.map Prod.fst := hd k0 (by simp)
    rw [anonymizeMapLoop_cons, mapSet_of_not_mem _ _ _ hk0, ih _ hm.2]
    · simp
    · intro k hk
      simp only [List.map_append, List.map_cons, List.map_nil, List.mem_append,
        List.mem_singleton, not_or]
      refine ⟨hd k (by simp [hk]), ?_⟩
      rintro rfl
      exact hm.1 hk

theorem anonymizeMap_nodup (caseTable : Char → Char) (m : List (String × Value))
    (hm : (m.map Prod.fst).Nodup) :
    anonymizeMap caseTable m = m.map (fun kv => (kv.1, fieldValue caseTable kv.1 kv.2)) := by
  unfold anonymizeMap
  rw [anonymizeMapLoop_nodup caseTable m [] hm (by simp)]
  simp

theorem anonymizeItems_eq_map (caseTable : Char → Char) (xs : List Value) :
    anonymizeItems caseTable xs = xs.map (anonymize caseTable) := by
  induction xs with
  | nil => simp [anonymizeItems]
  | cons x xs ih => simp [anonymizeItems, ih]

theorem anonymize_obj (caseTable : Char → Char) (m : List (String × Value)) :
    anonymize caseTable (.obj m) = .obj (anonymizeMap caseTable m) := by
  simp [anonymize, anonymizeMap]

theorem fieldValue_name (caseTable : Char → Char) (k : String) (v : Value)
    (h : contains (toLower caseTable k) "name" = true) :
    fieldValue caseTable k v = .str "REDACTED_NAME" := by
  unfold fieldValue
  simp only [if_pos h]

theorem fieldValue_accountid (caseTable : Char → Char) (k : String) (v : Value)
    (h : toLower caseTable k = "accountid") :
    fieldValue caseTable k v = .str "000000000000" := by
  unfold fieldValue
  rw [h]
  rfl

theorem fieldValue_resourceid (caseTable : Char → Char) (k : String) (v : Value)
    (h : toLower caseTable k = "resourceid") :
    fieldValue caseTable k v = .str "REDACTED_RESOURCE_ID" := by
  unfold fieldValue
  rw [h]
  rfl

theorem fieldValue_arn (caseTable : Char → Char) (k : String) (v : Value)
    (h : toLower caseTable k = "arn") :
    fieldValue caseTable k v = .str "arn:aws:REDACTED" := by
  unfold fieldValue
  rw [h]
  rfl

theorem fieldValue_tags (caseTable : Char → Char) (k : String) (v : Value)
    (h : toLower caseTable k = "tags") :
    fieldValue caseTable k v = .strmap [("REDACTED", "REDACTED")] := by
  unfold fieldValue
  rw [h]
  rfl

/-- Induction on values: a property that holds of the scalars and string maps, of an
array whenever it holds of its elements, and of an object whenever it holds of its
field values, holds of every value. -/
theorem Value.induct (P : Value → Prop) (hnull : P .null) (hbool : ∀ b, P (.bool b))
    (hnum : ∀ n, P (.num n)) (hstr : ∀ s, P (.str s)) (hstrmap : ∀ m, P (.strmap m))
    (harr : ∀ xs, (∀ x ∈ xs, P x) → P (.arr xs))
    (hobj : ∀ m, (∀ kv ∈ m, P kv.2) → P (.obj m)) : ∀ v, P v := by
  intro v
  refine @Value.rec P (fun xs => ∀ x ∈ xs, P x) (fun m => ∀ kv ∈ m, P kv.2) (fun kv => P kv.2)
    hnull hbool hnum hstr (fun xs ih => harr xs ih) (fun m ih => hobj m ih) hstrmap
    ?_ ?_ ?_ ?_ ?_ v
  · intro x h
    simp at h
  · intro hd tl h1 h2 x hx
    rcases List.mem_cons.1 hx with rfl | hx
    · exact h1
    · exact h2 x hx
  · intro kv h
    simp at h
  · intro hd tl h1 h2 kv hkv
    rcases List.mem_cons.1 hkv with rfl | hkv
    · exact h1
    · exact h2 kv hkv
  · intro k v h
    exact h

/-! ## Shape of the map built by the loop -/

theorem keys_mapSet {β : Type} (m : List (String × β)) (k : String) (v : β) :
    (mapSet m k v).map Prod.fst =
      if k ∈ m.map Prod.fst then m.map Prod.fst else m.map Prod.fst ++ [k] := by
  induction m with
  | nil => simp [mapSet]
  | cons hd tl ih =>
    obtain ⟨k0, v0⟩ := hd
    by_cases h : k0 = k
    · simp [mapSet, h]
    · have h' : ¬ k = k0 := fun e => h e.symm
      by_cases hm : k ∈ tl.map Prod.fst
      · simp only [mapSet, if_neg h, List.map_cons, ih, if_pos hm, List.mem_cons, hm, or_true,
          if_true]
      · simp only [mapSet, if_neg h, List.map_cons, ih, if_neg hm, List.mem_cons, h', hm,
          or_self, if_false, List.cons_append]

theorem nodup_keys_mapSet {β : Type} (m : List (String × β)) (k : String) (v : β)
    (h : (m.map Prod.fst).Nodup) : ((mapSet m k v).map Prod.fst).Nodup := by
  rw [keys_mapSet]
  by_cases hm : k ∈ m.map Prod.fst
  · rw [if_pos hm]
    exact h
  · rw [if_neg hm]
    exact List.Nodup.append h (List.nodup_singleton k) (by simpa using hm)

theorem mem_mapSet {β : Type} (m : List (String × β)) (k : String) (v : β) (p : String × β)
    (h : p ∈ mapSet m k v) : p = (k, v) ∨ p ∈ m := by
  induction m with
  | nil => simpa [mapSet] using h
  | cons hd tl ih =>
    obtain ⟨k0, v0⟩ := hd
    by_cases h0 : k0 = k
    · simp only [mapSet, if_pos h0, List.mem_cons] at h
      rcases h with h | h
      · exact Or.inl h
      · exact Or.inr (List.mem_cons_of_mem _ h)
    · simp only [mapSet, if_neg h0, List.mem_cons] at h
      rcases h with h | h
      · exact Or.inr (by simp [h])
      · rcases ih h with h | h
        · exact Or.inl h
        · exact Or.inr (List.mem_cons_of_mem _ h)

theorem nodup_keys_anonymizeMapLoop (caseTable : Char → Char) (m redacted : List (String × Value))
    (h : (redacted.map Prod.fst).Nodup) :
    ((anonymizeMapLoop caseTable m redacted).map Prod.fst).Nodup := by
  induction m generalizing redacted with
  | nil => simpa [anonymizeMapLoop] using h
  | cons hd tl ih =>
    obtain ⟨k0, v0⟩ := hd
    rw [anonymizeMapLoop_cons]
    exact ih _ (nodup_keys_mapSet _ _ _ h)

/-- Every binding of the map built by the loop was in `redacted` or is the value
stored for one of the input bindings. -/
theorem mem_anonymizeMapLoop (caseTable : Char → Char) (m redacted : List (String × Value))
    (p : String × Value) (h : p ∈ anonymizeMapLoop caseTable m redacted) :
    p ∈ redacted ∨ ∃ v, (p.1, v) ∈ m ∧ p.2 = fieldValue caseTable p.1 v := by
  induction m generalizing redacted with
  | nil => exact Or.inl (by simpa [anonymizeMapLoop] using h)
  | cons hd tl ih =>
    obtain ⟨k0, v0⟩ := hd
    rw [anonymizeMapLoop_cons] at h
    rcases ih _ h with h | ⟨v, hv, e⟩
    · rcases mem_mapSet _ _ _ _ h with h | h
      · refine Or.inr ⟨v0, ?_, ?_⟩
        · rw [h]
          exact List.mem_cons_self _ _
        · rw [h]
      · exact Or.inl h
    · exact Or.inr ⟨v, List.mem_cons_of_mem _ hv, e⟩

/-- The loop is idempotent on a map as soon as the value stored for each of its
bindings is stable under a second pass. -/
theorem anonymizeMap_idem_of (caseTable : Char → Char) (m : List (String × Value))
    (h : ∀ kv ∈ m, ∀ k, fieldValue caseTable k (fieldValue caseTable k kv.2) =
      fieldValue caseTable k kv.2) :
    anonymizeMap caseTable (anonymizeMap caseTable m) = anonymizeMap caseTable m := by
  have hn : ((anonymizeMap caseTable m).map Prod.fst).Nodup :=
    nodup_keys_anonymizeMapLoop caseTable m [] (by simp)
  rw [anonymizeMap_nodup caseTable _ hn]
  conv_rhs => rw [← List.map_id (anonymizeMap caseTable m)]
  apply List.map_congr_left
  intro p hp
  rcases mem_anonymizeMapLoop caseTable m [] p hp with hp | ⟨v, hv, e⟩
  · simp at hp
  · have := h (p.1, v) hv p.1
    simp only [id]
    rw [e, this]
    rw [← e]

/-! ## The value stored for a key, case by case -/

theorem fieldValue_resourcename (caseTable : Char → Char) (k : String) (v : Value)
    (h : toLower caseTable k = "resourcename") :
    fieldValue caseTable k v = .str "REDACTED_NAME" := by
  unfold fieldValue
  rw [h]
  rfl

theorem fieldValue_configuration (caseTable : Char → Char) (k : String) (v : Value)
    (h : toLower caseTable k = "configuration") :
    fieldValue caseTable k v = configurationValue caseTable v := by
  unfold fieldValue
  rw [h]
  rfl

theorem fieldValue_relationships (caseTable : Char → Char) (k : String) (v : Value)
    (h : toLower caseTable k = "relationships") :
    fieldValue caseTable k v = relationshipsValue caseTable v := by
  unfold fieldValue
  rw [h]
  rfl

theorem fieldValue_unlisted (caseTable : Char → Char) (k : String) (v : Value)
    (h : unlistedKey caseTable k) :
    fieldValue caseTable k v = anonymize caseTable v := by
  obtain ⟨h1, h2, h3, h4, h5, h6, h7, h8⟩ := h
  unfold fieldValue
  simp only [h1, Bool.false_eq_true, if_false, if_neg h2, if_neg h3, if_neg h4, if_neg h5,
    if_neg h6, if_neg h7, if_neg h8]
  cases v <;> simp only [anonymize, anonymizeMap, preRedact]

/-- The cases of the loop body: the stored value is a constant, or the value of the
`configuration` case, or that of the `relationships` case, or `anonymize` of the input. -/
theorem fieldValue_cases (caseTable : Char → Char) (k : String) :
    (∃ c, ∀ v, fieldValue caseTable k v = c) ∨
      (∀ v, fieldValue caseTable k v = configurationValue caseTable v) ∨
      (∀ v, fieldValue caseTable k v = relationshipsValue caseTable v) ∨
      (∀ v, fieldValue caseTable k v = anonymize caseTable v) := by
  by_cases h1 : contains (toLower caseTable k) "name" = true
  · exact Or.inl ⟨_, fun v => fieldValue_name caseTable k v h1⟩
  by_cases h2 : toLower caseTable k = "accountid"
  · exact Or.inl ⟨_, fun v => fieldValue_accountid caseTable k v h2⟩
  by_cases h3 : toLower caseTable k = "resourceid"
  · exact Or.inl ⟨_, fun v => fieldValue_resourceid caseTable k v h3⟩
  by_cases h4 : toLower caseTable k = "resourcename"
  · exact Or.inl ⟨_, fun v => fieldValue_resourcename caseTable k v h4⟩
  by_cases h5 : toLower caseTable k = "arn"
  · exact Or.inl ⟨_, fun v => fieldValue_arn caseTable k v h5⟩
  by_cases h6 : toLower caseTable k = "tags"
  · exact Or.inl ⟨_, fun v => fieldValue_tags caseTable k v h6⟩
  by_cases h7 : toLower caseTable k = "configuration"
  · exact Or.inr (Or.inl fun v => fieldValue_configuration caseTable k v h7)
  by_cases h8 : toLower caseTable k = "relationships"
  · exact Or.inr (Or.inr (Or.inl fun v => fieldValue_relationships caseTable k v h8))
  · exact Or.inr (Or.inr (Or.inr fun v => fieldValue_unlisted caseTable k v
      ⟨by simpa using h1, h2, h3, h4, h5, h6, h7, h8⟩))

/-! ## Idempotence -/

theorem fieldValue_idem_of_stable (caseTable : Char → Char) (v : Value)
    (h : Stable caseTable v) (k : String) :
    fieldValue caseTable k (fieldValue caseTable k v) = fieldValue caseTable k v := by
  rcases fieldValue_cases caseTable k with ⟨c, hc⟩ | hc | hc | hc
  · rw [hc, hc]
  · rw [hc, hc, h.2.1]
  · rw [hc, hc, h.2.2]
  · rw [hc, hc, h.1]

theorem relationshipItems_idem (caseTable : Char → Char) (xs : List Value)
    (h : ∀ x ∈ xs, Stable caseTable x) :
    relationshipItems caseTable (relationshipItems caseTable xs) =
      relationshipItems caseTable xs := by
  induction xs with
  | nil => simp [relationshipItems]
  | cons x xs ih =>
    have ih' := ih (fun y hy => h y (List.mem_cons_of_mem _ hy))
    have hx := (h x (List.mem_cons_self _ _)).1
    cases x <;> simp only [relationshipItems, ih']
    rw [anonymize_obj, anonymize_obj] at hx
    simp only [anonymizeMap] at hx
    injection hx with hx
    rw [hx]

theorem stable_all (caseTable : Char → Char) : ∀ v, Stable caseTable v := by
  apply Value.induct
  · exact ⟨rfl, rfl, rfl⟩
  · intro b
    exact ⟨rfl, rfl, rfl⟩
  · intro n
    exact ⟨rfl, rfl, rfl⟩
  · intro s
    have hp := preRedact_preRedact (.str s)
    by_cases h : IsARN s = true
    · simp only [preRedact, if_pos h] at hp
      refine ⟨?_, rfl, ?_⟩
      · simp only [anonymize, if_pos h, IsARN_anonymizeArn s h, anonymizeArn_anonymizeArn s h,
          if_true]
      · simp only [relationshipsValue, preRedact, if_pos h, IsARN_anonymizeArn s h,
          anonymizeArn_anonymizeArn s h, if_true]
    · refine ⟨?_, rfl, ?_⟩
      · simp only [anonymize, if_neg h]
      · simp only [relationshipsValue, preRedact, if_neg h]
  · intro m
    exact ⟨rfl, rfl, rfl⟩
  · intro xs ih
    refine ⟨?_, rfl, ?_⟩
    · simp only [anonymize, anonymizeItems_eq_map, List.map_map, Value.arr.injEq]
      apply List.map_congr_left
      intro x hx
      exact (ih x hx).1
    · simp only [relationshipsValue, relationshipItems_idem caseTable xs ih]
  · intro m ih
    have hm : anonymizeMap caseTable (anonymizeMap caseTable m) = anonymizeMap caseTable m :=
      anonymizeMap_idem_of caseTable m
        (fun kv hkv k => fieldValue_idem_of_stable caseTable kv.2 (ih kv hkv) k)
    refine ⟨?_, ?_, rfl⟩
    · rw [anonymize_obj, anonymize_obj, hm]
    · simp only [configurationValue, hm]

/-! ## No ARN leaks outside the pass-through parts of `relationships` -/

/-- The cases of the loop body, with what each of them says of the key. -/
theorem fieldValue_key_cases (caseTable : Char → Char) (k : String) :
    (∃ lit, IsARN lit = false ∧ ∀ v, fieldValue caseTable k v = .str lit) ∨
      (∀ v, fieldValue caseTable k v = .strmap [("REDACTED", "REDACTED")]) ∨
      (toLower caseTable k ≠ "relationships" ∧
        ∀ v, fieldValue caseTable k v = configurationValue caseTable v) ∨
      (toLower caseTable k = "relationships" ∧
        ∀ v, fieldValue caseTable k v = relationshipsValue caseTable v) ∨
      (toLower caseTable k ≠ "relationships" ∧
        ∀ v, fieldValue caseTable k v = anonymize caseTable v) := by
  by_cases h1 : contains (toLower caseTable k) "name" = true
  · exact Or.inl ⟨_, by decide, fun v => fieldValue_name caseTable k v h1⟩
  by_cases h2 : toLower caseTable k = "accountid"
  · exact Or.inl ⟨_, by decide, fun v => fieldValue_accountid caseTable k v h2⟩
  by_cases h3 : toLower caseTable k = "resourceid"
  · exact Or.inl ⟨_, by decide, fun v => fieldValue_resourceid caseTable k v h3⟩
  by_cases h4 : toLower caseTable k = "resourcename"
  · exact Or.inl ⟨_, by decide, fun v => fieldValue_resourcename caseTable k v h4⟩
  by_cases h5 : toLower caseTable k = "arn"
  · exact Or.inl ⟨_, by decide, fun v => fieldValue_arn caseTable k v h5⟩
  by_cases h6 : toLower caseTable k = "tags"
  · exact Or.inr (Or.inl fun v => fieldValue_tags caseTable k v h6)
  by_cases h7 : toLower caseTable k = "configuration"
  · refine Or.inr (Or.inr (Or.inl ⟨?_, fun v => fieldValue_configuration caseTable k v h7⟩))
    rw [h7]
    decide
  by_cases h8 : toLower caseTable k = "relationships"
  · exact Or.inr (Or.inr (Or.inr (Or.inl
      ⟨h8, fun v => fieldValue_relationships caseTable k v h8⟩)))
  · exact Or.inr (Or.inr (Or.inr (Or.inr ⟨h8, fun v => fieldValue_unlisted caseTable k v
      ⟨by simpa using h1, h2, h3, h4, h5, h6, h7, h8⟩⟩)))

theorem guardedFieldStrings_cons (caseTable : Char → Char) (k : String) (v : Value)
    (rest : List (String × Value)) :
    guardedFieldStrings caseTable ((k, v) :: rest) =
      (if toLower caseTable k = "relationships" then relationshipsStrings caseTable v
        else guardedStrings caseTable v) ++ guardedFieldStrings caseTable rest := by
  cases v <;> simp only [guardedFieldStrings, relationshipsStrings]

theorem mem_guardedFieldStrings (caseTable : Char → Char) (m : List (String × Value))
    (s : String) (h : s ∈ guardedFieldStrings caseTable m) :
    ∃ kv ∈ m, s ∈ (if toLower caseTable kv.1 = "relationships"
      then relationshipsStrings caseTable kv.2 else guardedStrings caseTable kv.2) := by
  induction m with
  | nil => simp [guardedFieldStrings] at h
  | cons hd tl ih =>
    obtain ⟨k, v⟩ := hd
    rw [guardedFieldStrings_cons, List.mem_append] at h
    rcases h with h | h
    · exact ⟨(k, v), List.mem_cons_self _ _, h⟩
    · obtain ⟨kv, hkv, hs⟩ := ih h
      exact ⟨kv, List.mem_cons_of_mem _ hkv, hs⟩

theorem mem_guardedItemStrings (caseTable : Char → Char) (xs : List Value) (s : String)
    (h : s ∈ guardedItemStrings caseTable xs) : ∃ x ∈ xs, s ∈ guardedStrings caseTable x := by
  induction xs with
  | nil => simp [guardedItemStrings] at h
  | cons x xs ih =>
    rw [guardedItemStrings, List.mem_append] at h
    rcases h with h | h
    · exact ⟨x, List.mem_cons_self _ _, h⟩
    · obtain ⟨y, hy, hs⟩ := ih h
      exact ⟨y, List.mem_cons_of_mem _ hy, hs⟩

/-- A guarded string of the object elements of a processed `relationships` array is a
guarded string of `anonymize` of an object element of the input array. -/
theorem mem_relationshipObjectStrings (caseTable : Char → Char) (xs : List Value) (s : String)
    (h : s ∈ relationshipObjectStrings caseTable (relationshipItems caseTable xs)) :
    ∃ m, Value.obj m ∈ xs ∧ s ∈ guardedStrings caseTable (anonymize caseTable (.obj m)) := by
  induction xs with
  | nil => simp [relationshipItems, relationshipObjectStrings] at h
  | cons x xs ih =>
    have step : s ∈ relationshipObjectStrings caseTable (relationshipItems caseTable xs) →
        ∃ m, Value.obj m ∈ x :: xs ∧
          s ∈ guardedStrings caseTable (anonymize caseTable (.obj m)) := by
      intro h'
      obtain ⟨m, hm, hs⟩ := ih h'
      exact ⟨m, List.mem_cons_of_mem _ hm, hs⟩
    cases x with
    | obj m =>
      simp only [relationshipItems, relationshipObjectStrings] at h
      rw [List.mem_append] at h
      rcases h with h | h
      · refine ⟨m, List.mem_cons_self _ _, ?_⟩
        simpa only [anonymize, guardedStrings] using h
      · exact step h
    | _ =>
      simp only [relationshipItems, relationshipObjectStrings] at h
      exact step h

theorem isJSON_items (xs : List Value) (h : itemsJSON xs = true) :
    ∀ x ∈ xs, isJSON x = true := by
  induction xs with
  | nil => simp
  | cons x xs ih =>
    simp only [itemsJSON, Bool.and_eq_true] at h
    intro y hy
    rcases List.mem_cons.1 hy with rfl | hy
    · exact h.1
    · exact ih h.2 y hy

theorem isJSON_fields (m : List (String × Value)) (h : fieldsJSON m = true) :
    ∀ kv ∈ m, isJSON kv.2 = true := by
  induction m with
  | nil => simp
  | cons hd tl ih =>
    obtain ⟨k, v⟩ := hd
    simp only [fieldsJSON, Bool.and_eq_true] at h
    intro y hy
    rcases List.mem_cons.1 hy with rfl | hy
    · exact h.1
    · exact ih h.2 y hy

theorem isRedactedARN_anonymizeArn (s : String) (h : IsARN s = true) :
    isRedactedARN (anonymizeArn s) = true := by
  obtain ⟨a, ha, rfl⟩ := (IsARN_iff s).1 h
  rw [anonymizeArn_ARN_String a ha]
  unfold isRedactedARN
  rw [Parse_ARN_String _ (wellFormed_redacted a ha)]
  rfl

theorem noLeak_preRedact (caseTable : Char → Char) (s : String) :
    (∀ t ∈ guardedStrings caseTable (preRedact (.str s)), NoLeak t) ∧
      ∀ t ∈ relationshipsStrings caseTable (preRedact (.str s)), NoLeak t := by
  by_cases h : IsARN s = true
  · simp only [preRedact, if_pos h, guardedStrings, relationshipsStrings, List.mem_singleton,
      forall_eq, NoLeak]
    exact ⟨fun _ => isRedactedARN_anonymizeArn s h, fun _ => isRedactedARN_anonymizeArn s h⟩
  · simp only [preRedact, if_neg h, guardedStrings, relationshipsStrings, List.mem_singleton,
      forall_eq, NoLeak]
    exact ⟨fun h' => absurd h' h, fun h' => absurd h' h⟩

theorem noLeak_configuration_literal (caseTable : Char → Char) :
    ∀ t ∈ guardedStrings caseTable (.str "REDACTED_CONFIGURATION"), NoLeak t := by
  simp only [guardedStrings, List.mem_singleton, forall_eq, NoLeak]
  decide

theorem safe_all (caseTable : Char → Char) : ∀ v, isJSON v = true → Safe caseTable v := by
  apply Value.induct
  · intro _
    refine ⟨?_, ?_, noLeak_configuration_literal caseTable⟩ <;>
      simp [anonymize, guardedStrings, relationshipsValue, preRedact, relationshipsStrings]
  · intro b _
    refine ⟨?_, ?_, noLeak_configuration_literal caseTable⟩ <;>
      simp [anonymize, guardedStrings, relationshipsValue, preRedact, relationshipsStrings]
  · intro n _
    refine ⟨?_, ?_, noLeak_configuration_literal caseTable⟩ <;>
      simp [anonymize, guardedStrings, relationshipsValue, preRedact, relationshipsStrings]
  · intro s _
    have hp := noLeak_preRedact caseTable s
    refine ⟨?_, hp.2, noLeak_configuration_literal caseTable⟩
    have e : anonymize caseTable (.str s) = preRedact (.str s) := by
      simp only [anonymize, preRedact]
    rw [e]
    exact hp.1
  · intro m h
    simp [isJSON] at h
  · intro xs ih h
    have hj := isJSON_items xs (by simpa only [isJSON] using h)
    refine ⟨?_, ?_, noLeak_configuration_literal caseTable⟩
    · intro s hs
      simp only [anonymize, guardedStrings, anonymizeItems_eq_map] at hs
      obtain ⟨y, hy, hs⟩ := mem_guardedItemStrings caseTable _ s hs
      obtain ⟨x, hx, rfl⟩ := List.mem_map.1 hy
      exact (ih x hx (hj x hx)).1 s hs
    · intro s hs
      simp only [relationshipsValue, relationshipsStrings] at hs
      obtain ⟨m, hm, hs⟩ := mem_relationshipObjectStrings caseTable xs s hs
      exact (ih _ hm (hj _ hm)).1 s hs
  · intro m ih h
    have hj := isJSON_fields m (by simpa only [isJSON] using h)
    have main : ∀ s ∈ guardedFieldStrings caseTable (anonymizeMap caseTable m), NoLeak s := by
      intro s hs
      obtain ⟨p, hp, hs⟩ := mem_guardedFieldStrings caseTable _ s hs
      rcases mem_anonymizeMapLoop caseTable m [] p hp with hp | ⟨v, hv, e⟩
      · simp at hp
      have hsafe := ih (p.1, v) hv (hj (p.1, v) hv)
      rw [e] at hs
      rcases fieldValue_key_cases caseTable p.1 with
        ⟨lit, hlit, hc⟩ | hc | ⟨hk, hc⟩ | ⟨hk, hc⟩ | ⟨hk, hc⟩
      · rw [hc] at hs
        have : s = lit := by
          split_ifs at hs <;> simpa [relationshipsStrings, guardedStrings] using hs
        rw [this]
        intro h'
        rw [hlit] at h'
        exact absurd h' (by decide)
      · rw [hc] at hs
        have : s = "REDACTED" := by
          split_ifs at hs
          · simp [relationshipsStrings] at hs
          · simpa [guardedStrings] using hs
        rw [this]
        intro h'
        exact absurd h' (by decide)
      · rw [hc, if_neg hk] at hs
        exact hsafe.2.2 s hs
      · rw [hc, if_pos hk] at hs
        exact hsafe.2.1 s hs
      · rw [hc, if_neg hk] at hs
        exact hsafe.1 s hs
    refine ⟨?_, ?_, ?_⟩
    · rw [anonymize_obj]
      simpa only [guardedStrings] using main
    · simp [relationshipsValue, preRedact, relationshipsStrings]
    · simpa only [configurationValue, guardedStrings] using main

/-! ## Lookup in the output of `anonymizeMap` -/

theorem mapGet_of_mem {β : Type} (m : List (String × β)) (k : String) (v : β)
    (hm : (m.map Prod.fst).Nodup) (h : (k, v) ∈ m) : mapGet m k = some v := by
  induction m with
  | nil => simp at h
  | cons hd tl ih =>
    obtain ⟨k0, v0⟩ := hd
    simp only [List.map_cons, List.nodup_cons] at hm
    rcases List.mem_cons.1 h with h | h
    · injection h with h1 h2
      subst h1
      subst h2
      simp [mapGet]
    · have hk : k ∈ tl.map Prod.fst := List.mem_map.2 ⟨(k, v), h, rfl⟩
      have hne : ¬ k0 = k := fun e => hm.1 (e ▸ hk)
      simp [mapGet, hne, ih hm.2 h]

/-- On an object with unique keys, the output of `anonymizeMap` at a key is the value
that the loop body stores for the binding of that key. -/
theorem mapGet_anonymizeMap (caseTable : Char → Char) (m : List (String × Value))
    (k : String) (v : Value) (hm : (m.map Prod.fst).Nodup) (h : (k, v) ∈ m) :
    mapGet (anonymizeMap caseTable m) k = some (fieldValue caseTable k v) := by
  rw [anonymizeMap_nodup caseTable m hm]
  apply mapGet_of_mem
  · rw [List.map_map]
    exact hm
  · exact List.mem_map.2 ⟨(k, v), h, rfl⟩

theorem relationshipItems_eq_map (caseTable : Char → Char) (xs : List Value) :
    relationshipItems caseTable xs = xs.map (relationshipItem caseTable) := by
  induction xs with
  | nil => simp [relationshipItems]
  | cons x xs ih =>
    cases x <;> simp [relationshipItems, relationshipItem, anonymizeMap, ih]

/-! ## Failure of `Parse` -/

theorem cutColon_some (l pre post : List Char) (h : cutColon l = some (pre, post)) :
    l.count ':' = post.count ':' + 1 := by
  induction l generalizing pre with
  | nil => simp [cutColon] at h
  | cons c cs ih =>
    by_cases hc : c = ':'
    · simp only [cutColon, if_pos hc, Option.some.injEq, Prod.mk.injEq] at h
      rw [hc, ← h.2]
      simp
    · simp only [cutColon, if_neg hc] at h
      cases hcut : cutColon cs with
      | none => simp [hcut] at h
      | some pp =>
        obtain ⟨p1, p2⟩ := pp
        simp only [hcut, Option.some.injEq, Prod.mk.injEq] at h
        have hc' : (c == ':') = false := by simpa using hc
        rw [List.count_cons, hc', ih p1 (by rw [hcut, h.2])]
        simp

theorem splitN_length_le (n : Nat) (l : List Char) :
    (splitN n l).length ≤ l.count ':' + 1 := by
  induction n using Nat.strong_induction_on generalizing l with
  | _ n ih =>
    match n with
    | 0 => simp [splitN]
    | 1 => simp [splitN]
    | n + 2 =>
      rw [splitN]
      cases hcut : cutColon l with
      | none => simp
      | some pp =>
        obtain ⟨pre, post⟩ := pp
        simp only [List.length_cons]
        rw [cutColon_some l pre post hcut]
        have := ih (n + 1) (by omega) post
        omega

theorem Parse_eq_none (s : String) (h : hasPrefix s "arn:" = false ∨ countColons s < 5) :
    Parse s = none := by
  unfold Parse
  by_cases hp : hasPrefix s "arn:" = true
  · rw [if_pos hp]
    rcases h with h | h
    · rw [h] at hp
      exact absurd hp (by decide)
    · have hl := splitN_length_le 6 s.data
      unfold countColons at h
      split
      · rename_i heq
        rw [heq] at hl
        simp only [List.length_cons, List.length_nil] at hl
        omega
      · rfl
  · rw [if_neg hp]

/-! ## Non-interference of the redacted keys -/

theorem fieldValue_redacted_key (caseTable : Char → Char) (k : String) (v1 v2 : Value)
    (hk : contains (toLower caseTable k) "name" = true ∨ toLower caseTable k = "accountid" ∨
      toLower caseTable k = "resourceid" ∨ toLower caseTable k = "arn" ∨
      toLower caseTable k = "tags") :
    fieldValue caseTable k v1 = fieldValue caseTable k v2 := by
  rcases hk with h | h | h | h | h
  · rw [fieldValue_name _ _ _ h, fieldValue_name _ _ _ h]
  · rw [fieldValue_accountid _ _ _ h, fieldValue_accountid _ _ _ h]
  · rw [fieldValue_resourceid _ _ _ h, fieldValue_resourceid _ _ _ h]
  · rw [fieldValue_arn _ _ _ h, fieldValue_arn _ _ _ h]
  · rw [fieldValue_tags _ _ _ h, fieldValue_tags _ _ _ h]

theorem anonymizeMapLoop_mapSet_congr (caseTable : Char → Char) (m redacted : List (String × Value))
    (k : String) (v1 v2 : Value) (h : fieldValue caseTable k v1 = fieldValue caseTable k v2) :
    anonymizeMapLoop caseTable (mapSet m k v1) redacted =
      anonymizeMapLoop caseTable (mapSet m k v2) redacted := by
  induction m generalizing redacted with
  | nil => simp only [mapSet, anonymizeMapLoop_cons, h]
  | cons hd tl ih =>
    obtain ⟨k0, v0⟩ := hd
    by_cases h0 : k0 = k
    · simp only [mapSet, if_pos h0, anonymizeMapLoop_cons, h]
    · simp only [mapSet, if_neg h0, anonymizeMapLoop_cons, ih]

/-! ## The claims -/

/-- C1, idempotence: for every value, of any kind and nesting depth, a second pass of
`anonymize` changes nothing. -/
theorem anonymize_idempotent (caseTable : Char → Char) (x : Value) :
    anonymize caseTable (anonymize caseTable x) = anonymize caseTable x :=
  (stable_all caseTable x).1

/-- C2 as stated fails: under the key `relationships`, an array element that is a
string is stored as it is, so a valid ARN with its account ID and resource reaches
the output. -/
theorem anonymize_arn_leak :
    isJSON (.obj [("relationships", .arr [.str "arn:aws:iam::123456789012:user/bob"])]) = true ∧
      "arn:aws:iam::123456789012:user/bob" ∈
        strings (anonymize id
          (.obj [("relationships", .arr [.str "arn:aws:iam::123456789012:user/bob"])])) ∧
      IsARN "arn:aws:iam::123456789012:user/bob" = true ∧
      isRedactedARN "arn:aws:iam::123456789012:user/bob" = false := by
  refine ⟨by rfl, ?_, by decide, by decide⟩
  decide

/-- C2 as amended, no ARN leaks outside the pass-through parts of `relationships`:
for every JSON value `x`, every string that occurs as a value in `anonymize x` and is
a valid ARN has account ID `000000000000` and resource `REDACTED`, the strings left
aside that lie, under a key whose lower-cased form is `relationships`, inside an
array element that is not an object or inside a value that is neither an array nor a
string. -/
theorem anonymize_no_arn_leak (caseTable : Char → Char) (x : Value) (hx : isJSON x = true)
    (s : String) (hs : s ∈ guardedStrings caseTable (anonymize caseTable x))
    (harn : IsARN s = true) : isRedactedARN s = true :=
  (safe_all caseTable x hx).1 s hs harn

theorem anonymize_no_arn_leak_witness :
    isJSON (.obj [("owner", .str "arn:aws:iam::123456789012:user/bob"),
        ("relationships", .arr [.str "arn:aws:iam::123456789012:user/eve",
          .obj [("peer", .str "arn:aws:ec2:eu-west-1:123456789012:vpc/vpc-1")]])]) = true ∧
      "arn:aws:ec2:eu-west-1:000000000000:REDACTED" ∈ guardedStrings id (anonymize id
        (.obj [("owner", .str "arn:aws:iam::123456789012:user/bob"),
          ("relationships", .arr [.str "arn:aws:iam::123456789012:user/eve",
            .obj [("peer", .str "arn:aws:ec2:eu-west-1:123456789012:vpc/vpc-1")]])])) ∧
      IsARN "arn:aws:ec2:eu-west-1:000000000000:REDACTED" = true ∧
      isRedactedARN "arn:aws:ec2:eu-west-1:000000000000:REDACTED" = true :=
  ⟨by rfl, by decide, by decide,
    anonymize_no_arn_leak id
      (.obj [("owner", .str "arn:aws:iam::123456789012:user/bob"),
        ("relationships", .arr [.str "arn:aws:iam::123456789012:user/eve",
          .obj [("peer", .str "arn:aws:ec2:eu-west-1:123456789012:vpc/vpc-1")]])])
      (by rfl) "arn:aws:ec2:eu-west-1:000000000000:REDACTED" (by decide) (by decide)⟩

/-- C3, key-set preservation: on an object with unique keys, `anonymize` returns an
object with the same keys, spelled as in the input and in the same order: no key
is added, removed or renamed. -/
theorem anonymize_keys_preserved (caseTable : Char → Char) (m : List (String × Value))
    (hm : (m.map Prod.fst).Nodup) :
    ∃ out, anonymize caseTable (.obj m) = .obj out ∧ out.map Prod.fst = m.map Prod.fst := by
  refine ⟨anonymizeMap caseTable m, anonymize_obj caseTable m, ?_⟩
  rw [anonymizeMap_nodup caseTable m hm, List.map_map]
  rfl

theorem anonymize_keys_preserved_witness :
    (([("accountId", Value.str "123456789012"), ("Tags", Value.null)] :
        List (String × Value)).map Prod.fst).Nodup ∧
      ∃ out, anonymize id (.obj [("accountId", .str "123456789012"), ("Tags", .null)]) = .obj out ∧
        out.map Prod.fst =
          ([("accountId", Value.str "123456789012"), ("Tags", Value.null)] :
            List (String × Value)).map Prod.fst :=
  ⟨by decide, anonymize_keys_preserved id _ (by decide)⟩

/-- C4, element-wise arrays: `anonymize` of an array is the array of the
anonymized elements; it has the same length, and its i-th element is the
anonymization of the i-th input element. -/
theorem anonymize_arr (caseTable : Char → Char) (xs : List Value) :
    ∃ out, anonymize caseTable (.arr xs) = .arr out ∧
      out = xs.map (anonymize caseTable) ∧ out.length = xs.length ∧
      ∀ i : Nat, out[i]? = (xs[i]?).map (anonymize caseTable) := by
  refine ⟨xs.map (anonymize caseTable), ?_, rfl, by simp, by simp⟩
  simp [anonymize, anonymizeItems_eq_map]

/-- C5, ARN redaction format: the text `arn:P:S:R:ACCOUNT:RESOURCE`, with `P`, `S`, `R`
and `ACCOUNT` free of colons and `RESOURCE` arbitrary, is a valid ARN, and `anonymizeArn`
returns `arn:P:S:R:000000000000:REDACTED` on it: partition, service and region are
kept, account ID and resource are replaced. -/
theorem anonymizeArn_format (P S R ACCOUNT RESOURCE : String)
    (hP : colonFree P) (hS : colonFree S) (hR : colonFree R) (hA : colonFree ACCOUNT) :
    IsARN ("arn:" ++ P ++ ":" ++ S ++ ":" ++ R ++ ":" ++ ACCOUNT ++ ":" ++ RESOURCE) = true ∧
      anonymizeArn ("arn:" ++ P ++ ":" ++ S ++ ":" ++ R ++ ":" ++ ACCOUNT ++ ":" ++ RESOURCE) =
        "arn:" ++ P ++ ":" ++ S ++ ":" ++ R ++ ":000000000000:REDACTED" := by
  have hw : ARN.wellFormed ⟨P, S, R, ACCOUNT, RESOURCE⟩ := ⟨hP, hS, hR, hA⟩
  have e1 : "arn:" ++ P ++ ":" ++ S ++ ":" ++ R ++ ":" ++ ACCOUNT ++ ":" ++ RESOURCE =
      ARN.String ⟨P, S, R, ACCOUNT, RESOURCE⟩ := by
    unfold ARN.String
    rfl
  have e2 : "arn:" ++ P ++ ":" ++ S ++ ":" ++ R ++ ":000000000000:REDACTED" =
      ARN.String ⟨P, S, R, "000000000000", "REDACTED"⟩ := by
    apply String.ext
    rw [ARN_String_data]
    simp only [String.data_append, List.append_assoc]
    rfl
  rw [e1, e2]
  exact ⟨IsARN_ARN_String _ hw, anonymizeArn_ARN_String _ hw⟩

theorem anonymizeArn_format_witness :
    colonFree "aws" ∧ colonFree "iam" ∧ colonFree "" ∧ colonFree "123456789012" ∧
      IsARN ("arn:" ++ "aws" ++ ":" ++ "iam" ++ ":" ++ "" ++ ":" ++ "123456789012" ++ ":" ++
        "role/ops:admin") = true ∧
      anonymizeArn ("arn:" ++ "aws" ++ ":" ++ "iam" ++ ":" ++ "" ++ ":" ++ "123456789012" ++ ":" ++
        "role/ops:admin") = "arn:" ++ "aws" ++ ":" ++ "iam" ++ ":" ++ "" ++ ":000000000000:REDACTED" :=
  ⟨by decide, by decide, by decide, by decide,
    anonymizeArn_format "aws" "iam" "" "123456789012" "role/ops:admin"
      (by decide) (by decide) (by decide) (by decide)⟩

/-- C6, scalar pass-through: `anonymize` returns a string that is not a valid ARN
unchanged, and returns every number, boolean and null unchanged. -/
theorem anonymize_scalar (caseTable : Char → Char) :
    (∀ s, IsARN s = false → anonymize caseTable (.str s) = .str s) ∧
      (∀ n, anonymize caseTable (.num n) = .num n) ∧
      (∀ b, anonymize caseTable (.bool b) = .bool b) ∧
      anonymize caseTable .null = .null := by
  refine ⟨fun s h => ?_, fun n => by simp [anonymize], fun b => by simp [anonymize],
    by simp [anonymize]⟩
  simp [anonymize, h]

theorem anonymize_scalar_witness :
    IsARN "my-bucket" = false ∧ anonymize id (.str "my-bucket") = .str "my-bucket" :=
  ⟨by decide, (anonymize_scalar id).1 "my-bucket" (by decide)⟩

/-- C7, key-name priority: for a key of the object whose lower-cased form contains
`name`, the output of `anonymizeMap` at that key is the string `REDACTED_NAME`,
whatever the value and whatever other rule the key would match; in particular it
is never `REDACTED_RESOURCE_NAME`. -/
theorem anonymizeMap_name_key (caseTable : Char → Char) (m : List (String × Value))
    (k : String) (hk : k ∈ m.map Prod.fst)
    (hname : contains (toLower caseTable k) "name" = true) :
    mapGet (anonymizeMap caseTable m) k = some (.str "REDACTED_NAME") ∧
      mapGet (anonymizeMap caseTable m) k ≠ some (.str "REDACTED_RESOURCE_NAME") := by
  have h := anonymizeMapLoop_const caseTable m [] k (.str "REDACTED_NAME")
    (fun v => fieldValue_name caseTable k v hname) hk
  refine ⟨h, ?_⟩
  unfold anonymizeMap
  rw [h]
  simp only [ne_eq, Option.some.injEq, Value.str.injEq]
  decide

theorem anonymizeMap_name_key_witness :
    "resourceName" ∈ ([("resourceName", Value.str "arn:aws:s3:::my-bucket")] :
        List (String × Value)).map Prod.fst ∧
      contains (toLower id "resourceName") "name" = true ∧
      toLower id "resourceName" = "resourcename" ∧
      mapGet (anonymizeMap id [("resourceName", .str "arn:aws:s3:::my-bucket")]) "resourceName" =
        some (.str "REDACTED_NAME") ∧
      mapGet (anonymizeMap id [("resourceName", .str "arn:aws:s3:::my-bucket")]) "resourceName" ≠
        some (.str "REDACTED_RESOURCE_NAME") :=
  ⟨by decide, by decide, by decide,
    anonymizeMap_name_key id [("resourceName", .str "arn:aws:s3:::my-bucket")] "resourceName"
      (by decide) (by decide)⟩

/-- C8, exact-key literals, case-insensitive: for a key of the object whose
lower-cased form is `accountid` the output of `anonymizeMap` at that key is
`000000000000`, and for one whose lower-cased form is `resourceid` it is
`REDACTED_RESOURCE_ID`, independently of the value. -/
theorem anonymizeMap_exact_key_literals (caseTable : Char → Char)
    (m : List (String × Value)) (k : String) (hk : k ∈ m.map Prod.fst) :
    (toLower caseTable k = "accountid" →
        mapGet (anonymizeMap caseTable m) k = some (.str "000000000000")) ∧
      (toLower caseTable k = "resourceid" →
        mapGet (anonymizeMap caseTable m) k = some (.str "REDACTED_RESOURCE_ID")) :=
  ⟨fun h => anonymizeMapLoop_const caseTable m [] k _
      (fun v => fieldValue_accountid caseTable k v h) hk,
    fun h => anonymizeMapLoop_const caseTable m [] k _
      (fun v => fieldValue_resourceid caseTable k v h) hk⟩

theorem anonymizeMap_exact_key_literals_witness :
    "accountId" ∈ ([("accountId", Value.str "123456789012"), ("ResourceID", Value.num 7)] :
        List (String × Value)).map Prod.fst ∧
      toLower id "accountId" = "accountid" ∧
      mapGet (anonymizeMap id [("accountId", .str "123456789012"), ("ResourceID", .num 7)])
        "accountId" = some (.str "000000000000") :=
  ⟨by decide, by decide,
    (anonymizeMap_exact_key_literals id
      [("accountId", .str "123456789012"), ("ResourceID", .num 7)] "accountId"
      (by decide)).1 (by decide)⟩

/-- C9, tags are discarded: for a key of the object whose lower-cased form is
`tags`, the output of `anonymizeMap` at that key is the single-entry map
`REDACTED: REDACTED` (the Go value `map[string]string{"REDACTED": "REDACTED"}`),
for every value of any kind. -/
theorem anonymizeMap_tags_key (caseTable : Char → Char) (m : List (String × Value))
    (k : String) (hk : k ∈ m.map Prod.fst) (htags : toLower caseTable k = "tags") :
    mapGet (anonymizeMap caseTable m) k = some (.strmap [("REDACTED", "REDACTED")]) :=
  anonymizeMapLoop_const caseTable m [] k _ (fun v => fieldValue_tags caseTable k v htags) hk

theorem anonymizeMap_tags_key_witness :
    "tags" ∈ ([("tags", Value.obj [("Env", .str "prod"), ("Team", .str "x")])] :
        List (String × Value)).map Prod.fst ∧
      toLower id "tags" = "tags" ∧
      mapGet (anonymizeMap id [("tags", .obj [("Env", .str "prod"), ("Team", .str "x")])]) "tags" =
        some (.strmap [("REDACTED", "REDACTED")]) :=
  ⟨by decide, by decide,
    anonymizeMap_tags_key id [("tags", .obj [("Env", .str "prod"), ("Team", .str "x")])] "tags"
      (by decide) (by decide)⟩

/-- C10, the arn key: for a key of the object whose lower-cased form is `arn`, the
output of `anonymizeMap` at that key is the literal `arn:aws:REDACTED`, for every
value: a valid ARN, a redacted ARN, a string containing `REDACTED`, any other
string, or a value that is not a string. -/
theorem anonymizeMap_arn_key (caseTable : Char → Char) (m : List (String × Value))
    (k : String) (hk : k ∈ m.map Prod.fst) (harn : toLower caseTable k = "arn") :
    mapGet (anonymizeMap caseTable m) k = some (.str "arn:aws:REDACTED") :=
  anonymizeMapLoop_const caseTable m [] k _ (fun v => fieldValue_arn caseTable k v harn) hk

theorem anonymizeMap_arn_key_witness :
    "ARN" ∈ ([("ARN", Value.str "arn:aws:iam::123456789012:user/bob")] :
        List (String × Value)).map Prod.fst ∧
      toLower id "ARN" = "arn" ∧
      mapGet (anonymizeMap id [("ARN", .str "arn:aws:iam::123456789012:user/bob")]) "ARN" =
        some (.str "arn:aws:REDACTED") :=
  ⟨by decide, by decide,
    anonymizeMap_arn_key id [("ARN", .str "arn:aws:iam::123456789012:user/bob")] "ARN"
      (by decide) (by decide)⟩

/-- C11, the configuration key: on an object with unique keys, for a binding of a key
whose lower-cased form is `configuration` to the value `v`, the output of
`anonymizeMap` at that key is `anonymize v` when `v` is an object, and the string
`REDACTED_CONFIGURATION` when `v` is not an object. -/
theorem anonymizeMap_configuration_key (caseTable : Char → Char) (m : List (String × Value))
    (k : String) (v : Value) (hm : (m.map Prod.fst).Nodup) (hkv : (k, v) ∈ m)
    (hk : toLower caseTable k = "configuration") :
    (∀ submap, v = .obj submap →
        mapGet (anonymizeMap caseTable m) k = some (anonymize caseTable v)) ∧
      ((∀ submap, v ≠ .obj submap) →
        mapGet (anonymizeMap caseTable m) k = some (.str "REDACTED_CONFIGURATION")) := by
  rw [mapGet_anonymizeMap caseTable m k v hm hkv, fieldValue_configuration caseTable k v hk]
  constructor
  · rintro submap rfl
    rw [anonymize_obj]
    rfl
  · intro h
    cases v <;> first | rfl | exact absurd rfl (h _)

theorem anonymizeMap_configuration_key_witness :
    (([("Configuration", Value.arr [.str "arn:aws:s3:::my-bucket"])] :
        List (String × Value)).map Prod.fst).Nodup ∧
      toLower id "Configuration" = "configuration" ∧
      mapGet (anonymizeMap id [("Configuration", .arr [.str "arn:aws:s3:::my-bucket"])])
        "Configuration" = some (.str "REDACTED_CONFIGURATION") :=
  ⟨by decide, by decide,
    (anonymizeMap_configuration_key id [("Configuration", .arr [.str "arn:aws:s3:::my-bucket"])]
      "Configuration" (.arr [.str "arn:aws:s3:::my-bucket"]) (by decide)
      (List.mem_singleton.2 rfl) (by decide)).2 (fun _ h => Value.noConfusion h)⟩

/-- C12 as stated fails: under the key `relationships`, a value that is not an array
is not always stored unchanged, since a string that is a valid ARN has been redacted
by the step at lines 93-96 before the switch. -/
theorem anonymizeMap_relationships_string_redacted :
    mapGet (anonymizeMap id [("relationships", .str "arn:aws:iam::123456789012:user/bob")])
        "relationships" = some (.str "arn:aws:iam::000000000000:REDACTED") ∧
      Value.str "arn:aws:iam::000000000000:REDACTED" ≠
        Value.str "arn:aws:iam::123456789012:user/bob" := by
  refine ⟨by rfl, ?_⟩
  simp only [ne_eq, Value.str.injEq]
  decide

/-- C12 as amended, the relationships key: on an object with unique keys, for a
binding of a key whose lower-cased form is `relationships` to the value `v`: if `v`
is an array, the output of `anonymizeMap` at that key is the array of the same length
in which each object element `e` is replaced by `anonymizeMap e` and each other
element is the input element; if `v` is not an array, the output is `v` unchanged,
except that a string that is a valid ARN is replaced by `anonymizeArn` of it. -/
theorem anonymizeMap_relationships_key (caseTable : Char → Char) (m : List (String × Value))
    (k : String) (v : Value) (hm : (m.map Prod.fst).Nodup) (hkv : (k, v) ∈ m)
    (hk : toLower caseTable k = "relationships") :
    (∀ arr, v = .arr arr →
        mapGet (anonymizeMap caseTable m) k = some (.arr (arr.map (relationshipItem caseTable))) ∧
        (arr.map (relationshipItem caseTable)).length = arr.length ∧
        (∀ (i : Nat) e, arr[i]? = some (.obj e) →
          (arr.map (relationshipItem caseTable))[i]? = some (.obj (anonymizeMap caseTable e))) ∧
        (∀ (i : Nat) x, arr[i]? = some x → (∀ e, x ≠ .obj e) →
          (arr.map (relationshipItem caseTable))[i]? = some x)) ∧
      ((∀ arr, v ≠ .arr arr) →
        (∀ s, v = .str s → IsARN s = true →
          mapGet (anonymizeMap caseTable m) k = some (.str (anonymizeArn s))) ∧
        ((∀ s, v = .str s → IsARN s = false) →
          mapGet (anonymizeMap caseTable m) k = some v)) := by
  rw [mapGet_anonymizeMap caseTable m k v hm hkv, fieldValue_relationships caseTable k v hk]
  constructor
  · rintro arr rfl
    refine ⟨?_, by simp, ?_, ?_⟩
    · simp only [relationshipsValue, relationshipItems_eq_map]
    · intro i e hi
      simp [List.getElem?_map, hi, relationshipItem]
    · intro i x hi hx
      simp only [List.getElem?_map, hi, Option.map_some', Option.some.injEq]
      cases x <;> first | rfl | exact absurd rfl (hx _)
  · intro h
    constructor
    · rintro s rfl hs
      simp only [relationshipsValue, preRedact, if_pos hs]
    · intro hs
      cases v with
      | arr xs => exact absurd rfl (h xs)
      | str s =>
        have := hs s rfl
        simp [relationshipsValue, preRedact, this]
      | _ => rfl

theorem anonymizeMap_relationships_key_witness :
    (([("relationships", Value.arr [.obj [("resourceId", .str "i-0123")],
        .str "arn:aws:iam::123456789012:user/bob"])] :
        List (String × Value)).map Prod.fst).Nodup ∧
      toLower id "relationships" = "relationships" ∧
      mapGet (anonymizeMap id [("relationships", .arr [.obj [("resourceId", .str "i-0123")],
        .str "arn:aws:iam::123456789012:user/bob"])]) "relationships" =
        some (.arr (([.obj [("resourceId", .str "i-0123")],
          .str "arn:aws:iam::123456789012:user/bob"] : List Value).map (relationshipItem id))) :=
  ⟨by decide, by decide,
    ((anonymizeMap_relationships_key id [("relationships",
        .arr [.obj [("resourceId", .str "i-0123")], .str "arn:aws:iam::123456789012:user/bob"])]
      "relationships"
      (.arr [.obj [("resourceId", .str "i-0123")], .str "arn:aws:iam::123456789012:user/bob"])
      (by decide) (List.mem_singleton.2 rfl) (by decide)).1 _ rfl).1⟩

/-- C13, ARN parse failure degrades to a placeholder: on a string that does not start
with `arn:` or has fewer than six colon-separated sections, that is fewer than five
colons, `Parse` fails and `anonymizeArn` returns the literal `arn:aws:REDACTED`;
`anonymizeArn` is a function from strings to strings, with no error result. -/
theorem anonymizeArn_parse_failure (s : String)
    (h : hasPrefix s "arn:" = false ∨ countColons s < 5) :
    Parse s = none ∧ anonymizeArn s = "arn:aws:REDACTED" := by
  have hp := Parse_eq_none s h
  refine ⟨hp, ?_⟩
  unfold anonymizeArn
  rw [hp]

theorem anonymizeArn_parse_failure_witness :
    (hasPrefix "arn:aws:s3:bucket" "arn:" = false ∨ countColons "arn:aws:s3:bucket" < 5) ∧
      Parse "arn:aws:s3:bucket" = none ∧ anonymizeArn "arn:aws:s3:bucket" = "arn:aws:REDACTED" :=
  ⟨Or.inr (by decide), anonymizeArn_parse_failure "arn:aws:s3:bucket" (Or.inr (by decide))⟩

/-- C14, totality: `anonymize` and `anonymizeMap` are defined by structural recursion
on the value, without fuel and without a failure result; on every value, of any depth
and with any kind of value at any key, `anonymize` returns a value, of the same kind as
its input, and on an object that value is the object built by `anonymizeMap`. -/
theorem anonymize_total (caseTable : Char → Char) (x : Value) :
    ∃ y, anonymize caseTable x = y ∧ y.kind = x.kind ∧
      ∀ m, x = .obj m → y = .obj (anonymizeMap caseTable m) := by
  refine ⟨anonymize caseTable x, rfl, ?_, ?_⟩
  · cases x <;> simp only [anonymize, Value.kind]
    split_ifs <;> rfl
  · rintro m rfl
    exact anonymize_obj caseTable m

/-- C15, redacted ARNs stay valid ARNs: for a valid ARN `s`, `anonymizeArn s` passes
the validity check again and parses, with the partition, service and region of `s`,
the account ID `000000000000` and the resource `REDACTED`. -/
theorem anonymizeArn_valid (s : String) (h : IsARN s = true) :
    IsARN (anonymizeArn s) = true ∧
      ∃ a b, Parse s = some a ∧ Parse (anonymizeArn s) = some b ∧
        b.partition = a.partition ∧ b.service = a.service ∧ b.region = a.region ∧
        b.accountID = "000000000000" ∧ b.resource = "REDACTED" := by
  refine ⟨IsARN_anonymizeArn s h, ?_⟩
  obtain ⟨a, ha, rfl⟩ := (IsARN_iff s).1 h
  refine ⟨a, ⟨a.partition, a.service, a.region, "000000000000", "REDACTED"⟩,
    Parse_ARN_String a ha, ?_, rfl, rfl, rfl, rfl, rfl⟩
  rw [anonymizeArn_ARN_String a ha]
  exact Parse_ARN_String _ (wellFormed_redacted a ha)

theorem anonymizeArn_valid_witness :
    IsARN "arn:aws:ec2:eu-west-1:123456789012:vpc/vpc-1" = true ∧
      IsARN (anonymizeArn "arn:aws:ec2:eu-west-1:123456789012:vpc/vpc-1") = true :=
  ⟨by decide, (anonymizeArn_valid "arn:aws:ec2:eu-west-1:123456789012:vpc/vpc-1" (by decide)).1⟩

/-- C16, scenario (nested configuration): `anonymize` maps the object
`{"configuration": {"arn": "arn:aws:s3:::my-bucket", "bucketName": "my-bucket"}}` to
`{"configuration": {"arn": "arn:aws:REDACTED", "bucketName": "REDACTED_NAME"}}`. -/
theorem anonymize_scenario_configuration :
    anonymize id (.obj [("configuration",
        .obj [("arn", .str "arn:aws:s3:::my-bucket"), ("bucketName", .str "my-bucket")])]) =
      .obj [("configuration",
        .obj [("arn", .str "arn:aws:REDACTED"), ("bucketName", .str "REDACTED_NAME")])] := by
  rfl

/-- C17, scenario (relationships): `anonymize` maps the object
`{"relationships": [{"resourceId": "i-0123", "other": 5}, "not-an-object"]}` to
`{"relationships": [{"resourceId": "REDACTED_RESOURCE_ID", "other": 5}, "not-an-object"]}`. -/
theorem anonymize_scenario_relationships :
    anonymize id (.obj [("relationships",
        .arr [.obj [("resourceId", .str "i-0123"), ("other", .num 5)], .str "not-an-object"])]) =
      .obj [("relationships",
        .arr [.obj [("resourceId", .str "REDACTED_RESOURCE_ID"), ("other", .num 5)],
          .str "not-an-object"])] := by
  rfl

/-- C18, unlisted keys behave like the generic dispatcher: on an object with unique
keys, for a binding to the value `v` of a key whose lower-cased form does not contain
`name` and is none of `accountid`, `resourceid`, `arn`, `tags`, `configuration`,
`relationships`, the output of `anonymizeMap` at that key is `anonymize v`, for a
value `v` of every kind. -/
theorem anonymizeMap_unlisted_key (caseTable : Char → Char) (m : List (String × Value))
    (k : String) (v : Value) (hm : (m.map Prod.fst).Nodup) (hkv : (k, v) ∈ m)
    (hname : contains (toLower caseTable k) "name" = false)
    (h1 : toLower caseTable k ≠ "accountid") (h2 : toLower caseTable k ≠ "resourceid")
    (h3 : toLower caseTable k ≠ "arn") (h4 : toLower caseTable k ≠ "tags")
    (h5 : toLower caseTable k ≠ "configuration")
    (h6 : toLower caseTable k ≠ "relationships") :
    mapGet (anonymizeMap caseTable m) k = some (anonymize caseTable v) := by
  have hr : toLower caseTable k ≠ "resourcename" := by
    intro e
    rw [e] at hname
    exact absurd hname (by decide)
  rw [mapGet_anonymizeMap caseTable m k v hm hkv,
    fieldValue_unlisted caseTable k v ⟨hname, h1, h2, hr, h3, h4, h5, h6⟩]

theorem anonymizeMap_unlisted_key_witness :
    (([("owner", Value.str "arn:aws:iam::123456789012:user/bob")] :
        List (String × Value)).map Prod.fst).Nodup ∧
      contains (toLower id "owner") "name" = false ∧
      mapGet (anonymizeMap id [("owner", .str "arn:aws:iam::123456789012:user/bob")]) "owner" =
        some (anonymize id (.str "arn:aws:iam::123456789012:user/bob")) :=
  ⟨by decide, by decide,
    anonymizeMap_unlisted_key id [("owner", .str "arn:aws:iam::123456789012:user/bob")] "owner"
      (.str "arn:aws:iam::123456789012:user/bob") (by decide) (List.mem_singleton.2 rfl)
      (by decide) (by decide) (by decide) (by decide) (by decide) (by decide) (by decide)⟩

/-- C19, the validity check and the parser agree: a string accepted by `IsARN` is
parsed by `Parse`, so `anonymizeArn` returns on it the text rebuilt from the parsed
fields and not the fallback `arn:aws:REDACTED`; consequently `anonymize` returns the
string `arn:aws:REDACTED` only on that very string. -/
theorem isARN_parse_agree (caseTable : Char → Char) (s : String) :
    (IsARN s = true →
        ∃ a, Parse s = some a ∧
          anonymizeArn s =
            ARN.String ⟨a.partition, a.service, a.region, "000000000000", "REDACTED"⟩ ∧
          anonymizeArn s ≠ "arn:aws:REDACTED") ∧
      (anonymize caseTable (.str s) = .str "arn:aws:REDACTED" → s = "arn:aws:REDACTED") := by
  have key : IsARN s = true → anonymizeArn s ≠ "arn:aws:REDACTED" := by
    intro h e
    have h' := IsARN_anonymizeArn s h
    rw [e] at h'
    exact absurd h' (by decide)
  constructor
  · intro h
    obtain ⟨a, ha, rfl⟩ := (IsARN_iff s).1 h
    exact ⟨a, Parse_ARN_String a ha, anonymizeArn_ARN_String a ha, key h⟩
  · intro h
    by_cases hs : IsARN s = true
    · simp only [anonymize, if_pos hs, Value.str.injEq] at h
      exact absurd h (key hs)
    · simpa only [anonymize, if_neg hs, Value.str.injEq] using h

theorem isARN_parse_agree_witness :
    IsARN "arn:aws:s3:::my-bucket" = true ∧
      ∃ a, Parse "arn:aws:s3:::my-bucket" = some a ∧
        anonymizeArn "arn:aws:s3:::my-bucket" =
          ARN.String ⟨a.partition, a.service, a.region, "000000000000", "REDACTED"⟩ ∧
        anonymizeArn "arn:aws:s3:::my-bucket" ≠ "arn:aws:REDACTED" :=
  ⟨by decide, (isARN_parse_agree id "arn:aws:s3:::my-bucket").1 (by decide)⟩

/-- C20, non-interference of redacted fields: for a key whose lower-cased form contains
`name` or is `accountid`, `resourceid`, `arn` or `tags`, `anonymizeMap` gives the same
result on an object whatever value is set at that key; and `anonymizeArn` gives the
same result on two valid ARNs that have the same partition, service and region. -/
theorem anonymizeMap_noninterference (caseTable : Char → Char) (m : List (String × Value))
    (k : String) (v1 v2 : Value) (s1 s2 : String) (a1 a2 : ARN) :
    ((contains (toLower caseTable k) "name" = true ∨ toLower caseTable k = "accountid" ∨
        toLower caseTable k = "resourceid" ∨ toLower caseTable k = "arn" ∨
        toLower caseTable k = "tags") →
        anonymizeMap caseTable (mapSet m k v1) = anonymizeMap caseTable (mapSet m k v2)) ∧
      (IsARN s1 = true → IsARN s2 = true → Parse s1 = some a1 → Parse s2 = some a2 →
        a1.partition = a2.partition → a1.service = a2.service → a1.region = a2.region →
        anonymizeArn s1 = anonymizeArn s2) := by
  constructor
  · intro hk
    exact anonymizeMapLoop_mapSet_congr caseTable m [] k v1 v2
      (fieldValue_redacted_key caseTable k v1 v2 hk)
  · intro _ _ p1 p2 e1 e2 e3
    unfold anonymizeArn
    rw [p1, p2]
    simp only [e1, e2, e3]

theorem anonymizeMap_noninterference_witness :
    (contains (toLower id "accountId") "name" = true ∨ toLower id "accountId" = "accountid" ∨
        toLower id "accountId" = "resourceid" ∨ toLower id "accountId" = "arn" ∨
        toLower id "accountId" = "tags") ∧
      anonymizeMap id (mapSet [("accountId", .null), ("owner", .str "bob")] "accountId"
          (.str "123456789012")) =
        anonymizeMap id (mapSet [("accountId", .null), ("owner", .str "bob")] "accountId"
          (.str "210987654321")) ∧
      IsARN "arn:aws:iam::123456789012:user/bob" = true ∧
      IsARN "arn:aws:iam::210987654321:role/ops" = true ∧
      anonymizeArn "arn:aws:iam::123456789012:user/bob" =
        anonymizeArn "arn:aws:iam::210987654321:role/ops" :=
  ⟨Or.inr (Or.inl (by decide)),
    (anonymizeMap_noninterference id [("accountId", .null), ("owner", .str "bob")] "accountId"
      (.str "123456789012") (.str "210987654321") "" "" ⟨"", "", "", "", ""⟩
      ⟨"", "", "", "", ""⟩).1 (Or.inr (Or.inl (by decide))),
    by decide, by decide,
    (anonymizeMap_noninterference id [] "" .null .null
      "arn:aws:iam::123456789012:user/bob" "arn:aws:iam::210987654321:role/ops"
      ⟨"aws", "iam", "", "123456789012", "user/bob"⟩
      ⟨"aws", "iam", "", "210987654321", "role/ops"⟩).2
      (by decide) (by decide) (by decide) (by decide) rfl rfl rfl⟩

end Anonymizer
